import Mathlib

/-!
Shallow embedding of the ANTelbrot Mandelbrot viewer (src/main.cpp).

Modelling conventions:
* `double` and the GMP `mpf_class` are modelled as exact rationals (`ℚ`);
  `std::complex<double>` as `ℚ × ℚ`.  The constants appearing in the source
  (`0.5`, `0.01`, `256`, `1024`, `2`, `10`) are all exactly representable.
* C++ `int` values are modelled as unbounded integers; the `(int)` cast of a
  `double` is truncation toward zero (`truncQ`); the conversion of an `int` to
  the unsigned 64-bit `size_t` is reduction modulo `2 ^ 64`.
* The transcendental subterm `std::log2(std::log2(zn_size))` of `palette`
  (main.cpp:52) has no exact executable counterpart; it is abstracted as an
  explicit parameter (`log2log2`, resp. its value `L`), and theorems quantify
  over it.  `log2(log2 z)` is a real number exactly when `z > 1`; for `z ≤ 1`
  the source obtains NaN or -infinity, modelled by `Option.none`.
* `std::vector` reads `v[i]` are modelled with `List.getD`; the list of indices
  actually read by the per-pixel loop is returned alongside the result so that
  in-bounds claims can be stated.
-/

namespace Antelbrot

/-! ### Colors (sf::Color: three 8-bit channels, alpha ignored) -/

structure Color where
  r : Fin 256
  g : Fin 256
  b : Fin 256
deriving DecidableEq, Repr

def cBlack : Color := ⟨0, 0, 0⟩

def cBlue : Color := ⟨0, 0, 255⟩

def cWhite : Color := ⟨255, 255, 255⟩

/-- The C++ `(int)` cast of a floating value: truncation toward zero. -/
def truncQ (q : ℚ) : ℤ := if q < 0 then ⌈q⌉ else ⌊q⌋

/-- Conversion of an `int` value to an 8-bit channel (`sf::Uint8`):
reduction modulo 256, as for any C++ unsigned integral conversion. -/
def toByte (n : ℤ) : Fin 256 := ⟨(n % 256).toNat, by omega⟩

/-- main.cpp:24-31, `interpolate`: per-channel linear interpolation
`channel = c1 + (c2 - c1) * mid`, computed in floating point, assigned to an
`int` (truncation), then narrowed to `sf::Uint8` by the `sf::Color`
constructor. -/
def interpolate (c1 c2 : Color) (mid : ℚ) : Color :=
  ⟨toByte (truncQ (((c1.r : ℕ) : ℚ) + (((c2.r : ℕ) : ℚ) - ((c1.r : ℕ) : ℚ)) * mid)),
   toByte (truncQ (((c1.g : ℕ) : ℚ) + (((c2.g : ℕ) : ℚ) - ((c1.g : ℕ) : ℚ)) * mid)),
   toByte (truncQ (((c1.b : ℕ) : ℚ) + (((c2.b : ℕ) : ℚ) - ((c1.b : ℕ) : ℚ)) * mid))⟩

/-- main.cpp:43-44, the inner loop of `color_table`:
`for (double d = 0; d < 1; d += 0.01) v.push_back(interpolate(*i, *next, d));`.
The loop variable is modelled exactly (`d = k/100`); the IEEE double loop also
performs exactly 100 passes (the accumulated sum of `0.01` stays below 1 until
the 100th addition), so the pass count agrees with the exact model.  The first
argument is fuel strictly larger than the 100 passes the loop makes. -/
def interpLoop (c1 c2 : Color) : ℕ → ℚ → List Color
  | 0, _ => []
  | fuel + 1, d =>
    if d < 1 then interpolate c1 c2 d :: interpLoop c1 c2 fuel (d + 1 / 100) else []

/-- The colors emitted for one anchor pair of `color_table` (main.cpp:43-44). -/
def interpSegment (c1 c2 : Color) : List Color := interpLoop c1 c2 200 0

/-- main.cpp:39-45, the iterator loop of `color_table`: each gradient element
is paired with its successor, the last one wrapping around to `gradient.begin()`
(held here as `first`). -/
def ctGo (first : Color) : List Color → List Color
  | [] => []
  | [c] => interpSegment c first
  | c :: c2 :: rest => interpSegment c c2 ++ ctGo first (c2 :: rest)

/-- main.cpp:35-47, `color_table`: expand a list of anchor colors into the
gradient lookup table. -/
def color_table : List Color → List Color
  | [] => []
  | c :: rest => ctGo c (c :: rest)

/-! ### Color mapper (`palette`, main.cpp:49-59) -/

/-- main.cpp:52-56 after the transcendental value `L = log2(log2 zn_size)` has
been computed: `nu = iter - L; nu *= 10; int i = (int) nu % gradient.size();`.
`gradient.size()` is the unsigned `size_t`, so the usual arithmetic conversions
turn `(int) nu` into an unsigned 64-bit value (reduction mod `2 ^ 64`) before
the `%`; the result is smaller than `len` and is stored back into the `int i`
used for the lookup. -/
def paletteIndex (L : ℚ) (iter : ℕ) (len : ℕ) : ℕ :=
  ((truncQ (((iter : ℚ) - L) * 10) % (2 ^ 64 : ℤ)).toNat) % len

/-- main.cpp:49-59, `palette`.  The source computes
`nu = iter - log2(log2(zn_size))` unconditionally; `log2(log2 z)` is a real
number exactly when `z > 1`, and for `zn_size ≤ 1` the NaN / -infinity value
flows into the `(int)` cast, which has no defined result — modelled as `none`.
For `zn_size > 1` the abstracted value `log2log2 zn_size` is used. -/
def palette (grad : List Color) (log2log2 : ℚ → ℚ) (zn_size : ℚ) (iter : ℕ) :
    Option Color :=
  if 1 < zn_size then
    some (grad.getD (paletteIndex (log2log2 zn_size) iter grad.length) cBlack)
  else none

/-! ### Reference orbit generator (`deep_zoom_point`, main.cpp:65-91) -/

/-- The exact Mandelbrot iterates of a center point:
`X_0 = center`, `X_{k+1} = X_k ^ 2 + center` (componentwise:
`(r, i) ↦ (r * r - i * i + cr, 2 * r * i + ci)`). -/
def mandelIter (cr ci : ℚ) : ℕ → ℚ × ℚ
  | 0 => (cr, ci)
  | n + 1 =>
    ((mandelIter cr ci n).1 * (mandelIter cr ci n).1 -
       (mandelIter cr ci n).2 * (mandelIter cr ci n).2 + cr,
     ((mandelIter cr ci n).1 + (mandelIter cr ci n).1) * (mandelIter cr ci n).2 + ci)

/-- The bailout test of main.cpp:83 on a pre-doubled sample:
`re > 1024 || im > 1024 || re < -1024 || im < -1024`. -/
def escapes (p : ℚ × ℚ) : Prop :=
  1024 < p.1 ∨ 1024 < p.2 ∨ p.1 < -1024 ∨ p.2 < -1024

instance (p : ℚ × ℚ) : Decidable (escapes p) := by
  unfold escapes; exact inferInstance

/-- main.cpp:72-89, the loop of `deep_zoom_point`, with the current iterate
`(xr, xi)` carried explicitly and the remaining pass count as the recursion
measure.  Each pass doubles the iterate, appends the doubled sample, returns
early if the sample fails the bailout test (main.cpp:83-84), and otherwise
advances by the Mandelbrot recurrence
`xn_r = xn_r * xn_r - xn_i * xn_i + center_r; xn_i = re * xn_i + center_i`
(with `re = 2 * xn_r` already computed). -/
def dzLoop (cr ci : ℚ) : ℚ → ℚ → ℕ → List (ℚ × ℚ)
  | _, _, 0 => []
  | xr, xi, n + 1 =>
    if escapes (xr + xr, xi + xi) then [(xr + xr, xi + xi)]
    else (xr + xr, xi + xi) ::
      dzLoop cr ci (xr * xr - xi * xi + cr) ((xr + xr) * xi + ci) n

/-- main.cpp:65-91, `deep_zoom_point`: the reference orbit of a center,
starting from `(xn_r, xn_i) = (center_r, center_i)`. -/
def deep_zoom_point (cr ci : ℚ) (depth : ℕ) : List (ℚ × ℚ) :=
  dzLoop cr ci cr ci depth

/-- Twice the `k`-th exact Mandelbrot iterate: the value `deep_zoom_point`
stores as its `k`-th pre-doubled sample. -/
def dblIter (cr ci : ℚ) (k : ℕ) : ℚ × ℚ :=
  (2 * (mandelIter cr ci k).1, 2 * (mandelIter cr ci k).2)

/-- The orbit generator restarted from the `k`-th iterate; `orbitFrom cr ci 0`
is `deep_zoom_point cr ci` (proof helper for the induction over the loop). -/
def orbitFrom (cr ci : ℚ) (k n : ℕ) : List (ℚ × ℚ) :=
  dzLoop cr ci (mandelIter cr ci k).1 (mandelIter cr ci k).2 n

/-! ### Perturbation iterator (`pt`, main.cpp:95-126) -/

def cAdd (a b : ℚ × ℚ) : ℚ × ℚ := (a.1 + b.1, a.2 + b.2)

def cMul (a b : ℚ × ℚ) : ℚ × ℚ := (a.1 * b.1 - a.2 * b.2, a.1 * b.2 + a.2 * b.1)

def cSmul (s : ℚ) (a : ℚ × ℚ) : ℚ × ℚ := (s * a.1, s * a.2)

/-- `std::norm`: the squared magnitude. -/
def cNorm (a : ℚ × ℚ) : ℚ := a.1 * a.1 + a.2 * a.2

/-- One pass of the do-while body of `pt` (main.cpp:112-117):
`dn *= x[iter] + dn; dn += d0; ++iter; zn_size = norm(x[iter] * 0.5 + dn);`.
Returns the new `dn` and the new `zn_size`.  Note that `zn_size` reads the
orbit at the already incremented index `iter + 1`; the read is modelled
totally with `List.getD`, and the indices read are accounted for in `ptGo`. -/
def ptStep (x : List (ℚ × ℚ)) (d0 dn : ℚ × ℚ) (iter : ℕ) : (ℚ × ℚ) × ℚ :=
  (cAdd (cMul dn (cAdd (x.getD iter (0, 0)) dn)) d0,
   cNorm (cAdd (cSmul (1 / 2) (x.getD (iter + 1) (0, 0)))
     (cAdd (cMul dn (cAdd (x.getD iter (0, 0)) dn)) d0)))

/-- main.cpp:111-118, the do-while loop of `pt`, with
`fuel = x.length - iter` as recursion measure (the loop continues only while
`iter < max_iter`, so the measure is faithful: when `fuel = 0` the continuation
test `iter + 1 < x.length` is false and both arms return after one body pass,
exactly as the do-while does).  Returns `((iter, zn_size), reads)` where
`reads` lists every orbit index read by `x[...]` in the executed passes. -/
def ptGo (x : List (ℚ × ℚ)) (d0 : ℚ × ℚ) : ℕ → (ℚ × ℚ) → ℕ → (ℕ × ℚ) × List ℕ
  | 0, dn, iter =>
    ((iter + 1, (ptStep x d0 dn iter).2), [iter, iter + 1])
  | fuel + 1, dn, iter =>
    if (ptStep x d0 dn iter).2 < 256 ∧ iter + 1 < x.length then
      ((ptGo x d0 fuel (ptStep x d0 dn iter).1 (iter + 1)).1,
        iter :: (iter + 1) :: (ptGo x d0 fuel (ptStep x d0 dn iter).1 (iter + 1)).2)
    else ((iter + 1, (ptStep x d0 dn iter).2), [iter, iter + 1])

/-- The `(iter, zn_size)` pair produced by the loop of `pt` for a pixel offset
`d0` (main.cpp:104-118): `iter` starts at 0, `dn` at `d0`. -/
def ptIter (x : List (ℚ × ℚ)) (d0 : ℚ × ℚ) : ℕ × ℚ := (ptGo x d0 x.length d0 0).1

/-- The orbit indices read by the loop of `pt` (main.cpp:113 and 116). -/
def ptReads (x : List (ℚ × ℚ)) (d0 : ℚ × ℚ) : List ℕ := (ptGo x d0 x.length d0 0).2

/-- main.cpp:99-102: the complex offset of pixel `(i, j)` from the view
center, `window_radius = min(size.x, size.y)`,
`d0 = (radius * (2i - W) / window_radius, -radius * (2j - H) / window_radius)`. -/
def ptOffset (i j : ℤ) (W H : ℕ) (radius : ℚ) : ℚ × ℚ :=
  (radius * (2 * (i : ℚ) - (W : ℚ)) / ((min W H : ℕ) : ℚ),
   -radius * (2 * (j : ℚ) - (H : ℚ)) / ((min W H : ℕ) : ℚ))

/-- main.cpp:95-126, `pt`: color one pixel.  `palette` is always called
(main.cpp:121) before the in-set check; an undefined palette value (NaN
propagation) poisons the call, hence the `Option`. -/
def pt (log2log2 : ℚ → ℚ) (i j : ℤ) (x : List (ℚ × ℚ)) (W H : ℕ) (radius : ℚ)
    (grad : List Color) : Option Color :=
  match palette grad log2log2 (ptIter x (ptOffset i j W H radius)).2
      (ptIter x (ptOffset i j W H radius)).1 with
  | none => none
  | some c0 =>
    some (if (ptIter x (ptOffset i j W H radius)).1 = x.length then cBlack else c0)

/-! ### Frame orchestrator (`update`, main.cpp:128-140) -/

/-- main.cpp:128-140, `update`: for every pixel `(i, j)` of the `W × H`
viewport (outer loop over `i`, inner over `j`) write `pt i j` at buffer
position `i + W * j`.  Modelled as the list of (position, color) writes. -/
def update (log2log2 : ℚ → ℚ) (W H : ℕ) (x : List (ℚ × ℚ)) (radius : ℚ)
    (grad : List Color) : List (ℕ × Option Color) :=
  (List.range W).flatMap fun i =>
    (List.range H).map fun j =>
      (i + W * j, pt log2log2 (i : ℤ) (j : ℤ) x W H radius grad)

/-! ### Mouse-click zoom (main.cpp:287-298) -/

/-- main.cpp:290-293, the left-click handler: convert the click position to a
complex offset, add it to the center, halve the radius.  Both components are
divided by `size.y` (the viewport height), not by `min(size.x, size.y)`:
`center_r += radius * (2 * mouse.x - (int) size.x) / size.y;`
`center_i += -radius * (2 * mouse.y - (int) size.y) / size.y;`
`radius /= 2;`. -/
def zoomAt (cr ci : ℚ) (mx my : ℤ) (W H : ℕ) (radius : ℚ) : ℚ × ℚ × ℚ :=
  (cr + radius * (2 * (mx : ℚ) - (W : ℚ)) / (H : ℚ),
   ci + -radius * (2 * (my : ℚ) - (H : ℚ)) / (H : ℚ),
   radius / 2)

/-! ### Lemmas about the palette builder -/

lemma truncQ_natCast (n : ℕ) : truncQ ((n : ℚ)) = (n : ℤ) := by
  unfold truncQ
  rw [if_neg (not_lt.mpr (by positivity)), Int.floor_natCast]

lemma toByte_coe (v : Fin 256) : toByte ((v : ℕ) : ℤ) = v := by
  have h1 : (((v : ℕ) : ℤ)) % 256 = ((v : ℕ) : ℤ) :=
    Int.emod_eq_of_lt (Int.natCast_nonneg _) (by exact_mod_cast v.isLt)
  apply Fin.ext
  simp [toByte, h1]

lemma interpolate_zero (c1 c2 : Color) : interpolate c1 c2 0 = c1 := by
  unfold interpolate
  simp only [mul_zero, add_zero, truncQ_natCast, toByte_coe]

lemma interpLoop_length (c1 c2 : Color) :
    ∀ (fuel k : ℕ), k ≤ 100 → 100 ≤ k + fuel →
      (interpLoop c1 c2 fuel ((k : ℚ) / 100)).length = 100 - k := by
  intro fuel
  induction fuel with
  | zero =>
    intro k hk hk2
    have hq : k = 100 := by omega
    subst hq
    simp [interpLoop]
  | succ f ih =>
    intro k hk hk2
    by_cases h : k < 100
    · have hd : ((k : ℚ) / 100) < 1 := by
        rw [div_lt_one (by norm_num)]
        exact_mod_cast h
      have hstep : ((k : ℚ) / 100) + 1 / 100 = (((k + 1 : ℕ) : ℚ)) / 100 := by
        push_cast
        ring
      simp only [interpLoop, if_pos hd, List.length_cons, hstep]
      rw [ih (k + 1) (by omega) (by omega)]
      omega
    · have hq : k = 100 := by omega
      subst hq
      have hd : ¬ (((100 : ℕ) : ℚ) / 100 < 1) := by norm_num
      simp [interpLoop, hd]

lemma interpSegment_length (c1 c2 : Color) : (interpSegment c1 c2).length = 100 := by
  have h := interpLoop_length c1 c2 200 0 (by norm_num) (by norm_num)
  simpa [interpSegment] using h

lemma ctGo_length (first : Color) :
    ∀ l : List Color, (ctGo first l).length = 100 * l.length := by
  intro l
  induction l with
  | nil => simp [ctGo]
  | cons c rest ih =>
    cases rest with
    | nil => simp [ctGo, interpSegment_length]
    | cons c2 rest2 =>
      simp only [ctGo, List.length_append, interpSegment_length, ih,
        List.length_cons]
      ring

/-- Claim C9: for every anchor list of length at least 2, `color_table` emits
exactly 100 interpolated colors per consecutive anchor pair (wrap-around pair
included), so the built palette has length `100 * number_of_anchors`, and the
color emitted at interpolation parameter `t = 0` is exactly the first anchor
of the pair, channel for channel. -/
theorem color_table_spec (anchors : List Color) (h : 2 ≤ anchors.length) :
    (color_table anchors).length = 100 * anchors.length ∧
      ∀ c1 c2 : Color, (interpSegment c1 c2).length = 100 ∧
        interpolate c1 c2 0 = c1 := by
  constructor
  · cases anchors with
    | nil => simp at h
    | cons c rest => simpa [color_table] using ctGo_length c (c :: rest)
  · intro c1 c2
    exact ⟨interpSegment_length c1 c2, interpolate_zero c1 c2⟩

theorem color_table_spec_witness :
    2 ≤ ([cBlack, cWhite] : List Color).length ∧
      ((color_table [cBlack, cWhite]).length =
          100 * ([cBlack, cWhite] : List Color).length ∧
        ∀ c1 c2 : Color, (interpSegment c1 c2).length = 100 ∧
          interpolate c1 c2 0 = c1) :=
  ⟨by simp, color_table_spec _ (by simp)⟩

/-! ### Lemmas about the reference orbit generator -/

lemma mandelIter_succ (cr ci : ℚ) (k : ℕ) :
    mandelIter cr ci (k + 1) =
      ((mandelIter cr ci k).1 * (mandelIter cr ci k).1 -
        (mandelIter cr ci k).2 * (mandelIter cr ci k).2 + cr,
       ((mandelIter cr ci k).1 + (mandelIter cr ci k).1) * (mandelIter cr ci k).2 +
         ci) := rfl

lemma dzLoop_succ (cr ci xr xi : ℚ) (n : ℕ) :
    dzLoop cr ci xr xi (n + 1) =
      if escapes (xr + xr, xi + xi) then [(xr + xr, xi + xi)]
      else (xr + xr, xi + xi) ::
        dzLoop cr ci (xr * xr - xi * xi + cr) ((xr + xr) * xi + ci) n := rfl

lemma orbitFrom_succ (cr ci : ℚ) (k n : ℕ) :
    orbitFrom cr ci k (n + 1) =
      if escapes (dblIter cr ci k) then [dblIter cr ci k]
      else dblIter cr ci k :: orbitFrom cr ci (k + 1) n := by
  have hd : ((mandelIter cr ci k).1 + (mandelIter cr ci k).1,
      (mandelIter cr ci k).2 + (mandelIter cr ci k).2) = dblIter cr ci k := by
    unfold dblIter
    rw [Prod.mk.injEq]
    exact ⟨by ring, by ring⟩
  unfold orbitFrom
  rw [dzLoop_succ, hd]
  rfl

lemma orbitFrom_length_le (cr ci : ℚ) :
    ∀ n k, (orbitFrom cr ci k n).length ≤ n := by
  intro n
  induction n with
  | zero => intro k; simp [orbitFrom, dzLoop]
  | succ n ih =>
    intro k
    rw [orbitFrom_succ]
    split
    · simp
    · have := ih (k + 1)
      simp only [List.length_cons]
      omega

lemma orbitFrom_length_pos (cr ci : ℚ) (n k : ℕ) (hn : 0 < n) :
    0 < (orbitFrom cr ci k n).length := by
  cases n with
  | zero => omega
  | succ n =>
    rw [orbitFrom_succ]
    split <;> simp

lemma orbitFrom_getD (cr ci : ℚ) :
    ∀ n k m, m < (orbitFrom cr ci k n).length →
      (orbitFrom cr ci k n).getD m (0, 0) = dblIter cr ci (k + m) := by
  intro n
  induction n with
  | zero => intro k m hm; simp [orbitFrom, dzLoop] at hm
  | succ n ih =>
    intro k m hm
    rw [orbitFrom_succ] at hm ⊢
    by_cases he : escapes (dblIter cr ci k)
    · rw [if_pos he] at hm ⊢
      have hm0 : m = 0 := by simpa using hm
      subst hm0
      simp
    · rw [if_neg he] at hm ⊢
      cases m with
      | zero => simp
      | succ m =>
        simp only [List.getD_cons_succ]
        have hm2 : m < (orbitFrom cr ci (k + 1) n).length := by
          simpa using hm
        rw [ih (k + 1) m hm2]
        have harg : k + 1 + m = k + (m + 1) := by omega
        rw [harg]

lemma orbitFrom_no_escape_before_last (cr ci : ℚ) :
    ∀ n k m, m + 1 < (orbitFrom cr ci k n).length →
      ¬ escapes ((orbitFrom cr ci k n).getD m (0, 0)) := by
  intro n
  induction n with
  | zero => intro k m hm; simp [orbitFrom, dzLoop] at hm
  | succ n ih =>
    intro k m hm
    rw [orbitFrom_succ] at hm ⊢
    by_cases he : escapes (dblIter cr ci k)
    · rw [if_pos he] at hm
      simp at hm
    · rw [if_neg he] at hm ⊢
      cases m with
      | zero => simpa using he
      | succ m =>
        simp only [List.getD_cons_succ]
        apply ih (k + 1)
        simpa using hm

lemma orbitFrom_escape_last (cr ci : ℚ) :
    ∀ n k, (orbitFrom cr ci k n).length < n →
      escapes ((orbitFrom cr ci k n).getD
        ((orbitFrom cr ci k n).length - 1) (0, 0)) := by
  intro n
  induction n with
  | zero => intro k h; exact absurd h (by omega)
  | succ n ih =>
    intro k h
    rw [orbitFrom_succ] at h ⊢
    by_cases he : escapes (dblIter cr ci k)
    · rw [if_pos he] at h ⊢
      simpa using he
    · rw [if_neg he] at h ⊢
      have hlen : (orbitFrom cr ci (k + 1) n).length < n := by
        simp only [List.length_cons] at h
        omega
      have hpos : 0 < (orbitFrom cr ci (k + 1) n).length :=
        orbitFrom_length_pos cr ci n (k + 1) (by omega)
      simp only [List.length_cons]
      have hidx : (orbitFrom cr ci (k + 1) n).length + 1 - 1 =
          ((orbitFrom cr ci (k + 1) n).length - 1) + 1 := by omega
      rw [hidx, List.getD_cons_succ]
      exact ih (k + 1) hlen

/-- Claim C3: for every center and every positive depth, the orbit returned by
`deep_zoom_point` samples exactly twice the Mandelbrot iterates of the center
(`X_0 = center`, `X_{k+1} = X_k ^ 2 + center`); each sample is appended before
the bailout test, the generator stops as soon as a doubled component exceeds
1024 in absolute value (so only the last sample can fail the test, and when
the orbit is shorter than `depth` its last sample does fail it), and when no
sample fails the test the orbit has length exactly `depth`. -/
theorem deep_zoom_point_spec (cr ci : ℚ) (depth : ℕ) (hd : 0 < depth) :
    (∀ m, m < (deep_zoom_point cr ci depth).length →
        (deep_zoom_point cr ci depth).getD m (0, 0) =
          (2 * (mandelIter cr ci m).1, 2 * (mandelIter cr ci m).2)) ∧
      (deep_zoom_point cr ci depth).length ≤ depth ∧
      0 < (deep_zoom_point cr ci depth).length ∧
      (∀ m, m + 1 < (deep_zoom_point cr ci depth).length →
        ¬ escapes ((deep_zoom_point cr ci depth).getD m (0, 0))) ∧
      ((deep_zoom_point cr ci depth).length < depth →
        escapes ((deep_zoom_point cr ci depth).getD
          ((deep_zoom_point cr ci depth).length - 1) (0, 0))) ∧
      ((∀ m, m < (deep_zoom_point cr ci depth).length →
          ¬ escapes ((deep_zoom_point cr ci depth).getD m (0, 0))) →
        (deep_zoom_point cr ci depth).length = depth) := by
  have hdz : deep_zoom_point cr ci depth = orbitFrom cr ci 0 depth := rfl
  rw [hdz]
  refine ⟨?_, orbitFrom_length_le cr ci depth 0,
    orbitFrom_length_pos cr ci depth 0 hd, ?_, ?_, ?_⟩
  · intro m hm
    have h := orbitFrom_getD cr ci depth 0 m hm
    simpa [dblIter] using h
  · intro m hm
    exact orbitFrom_no_escape_before_last cr ci depth 0 m hm
  · intro hlt
    exact orbitFrom_escape_last cr ci depth 0 hlt
  · intro hall
    by_contra hne
    have hlt : (orbitFrom cr ci 0 depth).length < depth :=
      lt_of_le_of_ne (orbitFrom_length_le cr ci depth 0) hne
    have hesc := orbitFrom_escape_last cr ci depth 0 hlt
    have hpos := orbitFrom_length_pos cr ci depth 0 hd
    exact hall _ (by omega) hesc

theorem deep_zoom_point_spec_witness :
    (0 : ℕ) < 1 ∧
      ((∀ m, m < (deep_zoom_point 0 0 1).length →
          (deep_zoom_point 0 0 1).getD m (0, 0) =
            (2 * (mandelIter 0 0 m).1, 2 * (mandelIter 0 0 m).2)) ∧
        (deep_zoom_point 0 0 1).length ≤ 1 ∧
        0 < (deep_zoom_point 0 0 1).length ∧
        (∀ m, m + 1 < (deep_zoom_point 0 0 1).length →
          ¬ escapes ((deep_zoom_point 0 0 1).getD m (0, 0))) ∧
        ((deep_zoom_point 0 0 1).length < 1 →
          escapes ((deep_zoom_point 0 0 1).getD
            ((deep_zoom_point 0 0 1).length - 1) (0, 0))) ∧
        ((∀ m, m < (deep_zoom_point 0 0 1).length →
            ¬ escapes ((deep_zoom_point 0 0 1).getD m (0, 0))) →
          (deep_zoom_point 0 0 1).length = 1)) :=
  ⟨by norm_num, deep_zoom_point_spec 0 0 1 (by norm_num)⟩

lemma dzLoop_zero_iterate :
    ∀ n : ℕ, dzLoop 0 0 0 0 n = List.replicate n ((0 : ℚ), (0 : ℚ)) := by
  intro n
  induction n with
  | zero => rfl
  | succ n ih =>
    rw [dzLoop_succ]
    have he0 : ¬ escapes ((0 : ℚ) + 0, (0 : ℚ) + 0) := by
      unfold escapes
      norm_num
    rw [if_neg he0]
    have h2 : (0 : ℚ) * 0 - 0 * 0 + 0 = 0 := by norm_num
    have h3 : ((0 : ℚ) + 0) * 0 + 0 = 0 := by norm_num
    rw [h2, h3]
    have h1 : (((0 : ℚ) + 0, (0 : ℚ) + 0) : ℚ × ℚ) = ((0 : ℚ), (0 : ℚ)) := by
      norm_num
    rw [h1, ih, List.replicate_succ]

/-- Claim C8: for center `(0, 0)` and depth 1000 the reference-orbit generator
never triggers the 1024 bailout — every sample is `(0, 0)` — and returns an
orbit of length exactly 1000. -/
theorem deep_zoom_point_origin :
    deep_zoom_point 0 0 1000 = List.replicate 1000 ((0 : ℚ), (0 : ℚ)) ∧
      (deep_zoom_point 0 0 1000).length = 1000 ∧
      ∀ p ∈ deep_zoom_point 0 0 1000, ¬ escapes p := by
  have h : deep_zoom_point 0 0 1000 = List.replicate 1000 ((0 : ℚ), (0 : ℚ)) :=
    dzLoop_zero_iterate 1000
  refine ⟨h, by rw [h, List.length_replicate], ?_⟩
  intro p hp
  rw [h] at hp
  rw [List.eq_of_mem_replicate hp]
  unfold escapes
  norm_num

/-! ### Lemmas about the perturbation loop -/

lemma ptGo_iter_lower (x : List (ℚ × ℚ)) (d0 : ℚ × ℚ) :
    ∀ (fuel : ℕ) (dn : ℚ × ℚ) (iter : ℕ), iter + 1 ≤ ((ptGo x d0 fuel dn iter).1).1 := by
  intro fuel
  induction fuel with
  | zero => intro dn iter; simp [ptGo]
  | succ f ih =>
    intro dn iter
    by_cases h : (ptStep x d0 dn iter).2 < 256 ∧ iter + 1 < x.length
    · simp only [ptGo, if_pos h]
      have := ih (ptStep x d0 dn iter).1 (iter + 1)
      omega
    · simp only [ptGo, if_neg h]
      omega

lemma ptGo_iter_bounds (x : List (ℚ × ℚ)) (d0 : ℚ × ℚ) :
    ∀ (fuel : ℕ) (dn : ℚ × ℚ) (iter : ℕ), iter + fuel = x.length → 1 ≤ fuel →
      ((ptGo x d0 fuel dn iter).1).1 ≤ x.length ∧
        (256 ≤ ((ptGo x d0 fuel dn iter).1).2 ∨
          ((ptGo x d0 fuel dn iter).1).1 = x.length) := by
  intro fuel
  induction fuel with
  | zero => intro dn iter hinv h1; exact absurd h1 (by norm_num)
  | succ f ih =>
    intro dn iter hinv _
    by_cases h : (ptStep x d0 dn iter).2 < 256 ∧ iter + 1 < x.length
    · have hf : 1 ≤ f := by omega
      have := ih (ptStep x d0 dn iter).1 (iter + 1) (by omega) hf
      simp only [ptGo, if_pos h]
      exact this
    · simp only [ptGo, if_neg h]
      refine ⟨by omega, ?_⟩
      rcases not_and_or.mp h with h2 | h2
      · exact Or.inl (le_of_not_lt h2)
      · exact Or.inr (by omega)

/-- Claim C1: for every pixel offset and every non-empty reference orbit, the
iteration count returned by the perturbation loop of `pt` never exceeds
`orbit.length`; the loop stops when the squared magnitude reaches 256 or when
`iter` equals `orbit.length`, and the returned `iter` satisfies
`iter ≤ orbit.length`. -/
theorem pt_iter_le_orbit_length (x : List (ℚ × ℚ)) (d0 : ℚ × ℚ) (hx : x ≠ []) :
    (ptIter x d0).1 ≤ x.length ∧
      (256 ≤ (ptIter x d0).2 ∨ (ptIter x d0).1 = x.length) := by
  have hlen : 1 ≤ x.length := List.length_pos.mpr hx
  exact ptGo_iter_bounds x d0 x.length d0 0 (by omega) hlen

theorem pt_iter_le_orbit_length_witness :
    ([((0 : ℚ), (0 : ℚ))] ≠ ([] : List (ℚ × ℚ))) ∧
      ((ptIter [((0 : ℚ), (0 : ℚ))] ((0 : ℚ), (0 : ℚ))).1 ≤
          [((0 : ℚ), (0 : ℚ))].length ∧
        (256 ≤ (ptIter [((0 : ℚ), (0 : ℚ))] ((0 : ℚ), (0 : ℚ))).2 ∨
          (ptIter [((0 : ℚ), (0 : ℚ))] ((0 : ℚ), (0 : ℚ))).1 =
            [((0 : ℚ), (0 : ℚ))].length)) :=
  ⟨by simp, pt_iter_le_orbit_length _ _ (by simp)⟩

/-- Claim C10: the do-while loop of `pt` runs its body before the first exit
test, so for every pixel offset and every orbit (empty included) the returned
iteration count is at least 1; a count of 0 is never produced. -/
theorem pt_iter_at_least_one (x : List (ℚ × ℚ)) (d0 : ℚ × ℚ) :
    1 ≤ (ptIter x d0).1 := by
  simpa [ptIter] using ptGo_iter_lower x d0 x.length d0 0

/-- Claim C2 (failing-input evaluation): for the one-sample orbit `[(0, 0)]`
and pixel offset `(0, 0)` the loop of `pt` reads orbit index 1, which is not
strictly less than the orbit length 1: the final-magnitude computation
`zn_size = norm(x[iter] * 0.5 + dn)` (main.cpp:116) is performed after `iter`
was incremented to `orbit.length`, an out-of-bounds `std::vector` read. -/
theorem pt_reads_out_of_bounds :
    1 ∈ ptReads [((0 : ℚ), (0 : ℚ))] ((0 : ℚ), (0 : ℚ)) ∧
      ¬ 1 < ([((0 : ℚ), (0 : ℚ))] : List (ℚ × ℚ)).length := by
  constructor
  · norm_num [ptReads, ptGo, ptStep, cAdd, cMul, cSmul, cNorm]
  · simp

/-- Claim C4 (code evaluation): `palette` applies `log2` to `log2 zn_size`
with no clamp and no special case, so its result is a well-defined color iff
`zn_size > 1`; for every input with `zn_size ≤ 1` the NaN / -infinity value
propagates (modelled by `none`) instead of being guarded. -/
theorem palette_undefined_iff (grad : List Color) (log2log2 : ℚ → ℚ)
    (zn_size : ℚ) (iter : ℕ) :
    palette grad log2log2 zn_size iter = none ↔ zn_size ≤ 1 := by
  by_cases h : 1 < zn_size
  · simp only [palette, if_pos h]
    simp [not_le.mpr h]
  · simp only [palette, if_neg h]
    simp [not_lt.mp h]

/-- Claim C5 (amended): the palette index is the truncation toward zero of
`10 * (iter - log2(log2 zn_size))`, converted to the unsigned 64-bit
`size_t` (reduction mod `2 ^ 64`) and then reduced modulo the palette length,
so it always lies in `[0, palette.length)`; when the truncated value is
nonnegative (and within `int` range) it agrees with the mathematical
`mod palette.length`. -/
theorem paletteIndex_in_bounds (L : ℚ) (iter len : ℕ) (hlen : 0 < len) :
    paletteIndex L iter len < len ∧
      (0 ≤ truncQ (((iter : ℚ) - L) * 10) →
        truncQ (((iter : ℚ) - L) * 10) < 2 ^ 31 →
        (paletteIndex L iter len : ℤ) =
          truncQ (((iter : ℚ) - L) * 10) % (len : ℤ)) := by
  constructor
  · exact Nat.mod_lt _ hlen
  · intro h0 h31
    unfold paletteIndex
    have h1 : truncQ (((iter : ℚ) - L) * 10) % (2 ^ 64 : ℤ) =
        truncQ (((iter : ℚ) - L) * 10) := Int.emod_eq_of_lt h0 (by omega)
    rw [h1, Int.natCast_mod, Int.toNat_of_nonneg h0]

theorem paletteIndex_in_bounds_witness :
    (0 : ℕ) < 500 ∧
      (paletteIndex 4 1 500 < 500 ∧
        (0 ≤ truncQ ((((1 : ℕ) : ℚ) - 4) * 10) →
          truncQ ((((1 : ℕ) : ℚ) - 4) * 10) < 2 ^ 31 →
          (paletteIndex 4 1 500 : ℤ) =
            truncQ ((((1 : ℕ) : ℚ) - 4) * 10) % (500 : ℤ))) :=
  ⟨by norm_num, paletteIndex_in_bounds 4 1 500 (by norm_num)⟩

/-- Claim C5 (counterexample to the claim as stated): at
`log2(log2 zn_size) = 4` (that is, `zn_size = 65536`), `iter = 1` and palette
length 500 the code's index is 86 — the negative truncated value -30 wraps
through the unsigned `size_t` conversion — while the floor of the smoothed
value reduced by the mathematical modulo is 470; the two disagree. -/
theorem paletteIndex_ne_floor_mod :
    paletteIndex 4 1 500 = 86 ∧
      ⌊(((1 : ℕ) : ℚ) - 4) * 10⌋ % (500 : ℤ) = 470 ∧ (86 : ℕ) ≠ 470 := by
  refine ⟨?_, by norm_num, by norm_num⟩
  have h : (((1 : ℕ) : ℚ) - 4) * 10 = -30 := by norm_num
  have ht : truncQ ((((1 : ℕ) : ℚ) - 4) * 10) = -30 := by
    rw [h]; unfold truncQ
    rw [if_pos (by norm_num), show ((-30 : ℚ)) = ((-30 : ℤ) : ℚ) by norm_num,
      Int.ceil_intCast]
  unfold paletteIndex
  rw [ht]
  decide

/-- Claim C7: a degenerate viewport (`W = 0` or `H = 0`) makes `update`
produce an empty write list: no per-pixel evaluation (`pt` call) happens at
all, so the division by `window_radius = min(W, H) = 0` never occurs. -/
theorem update_empty_on_degenerate (log2log2 : ℚ → ℚ) (W H : ℕ)
    (x : List (ℚ × ℚ)) (radius : ℚ) (grad : List Color) (h : W = 0 ∨ H = 0) :
    update log2log2 W H x radius grad = [] := by
  rcases h with h | h <;> subst h <;> simp [update]

theorem update_empty_on_degenerate_witness :
    ((0 : ℕ) = 0 ∨ (3 : ℕ) = 0) ∧
      update (fun q => q) 0 3 [] 2 [] = [] :=
  ⟨Or.inl rfl, update_empty_on_degenerate _ _ _ _ _ _ (Or.inl rfl)⟩

/-- Claim C6 (counterexample to the claim as stated): on a portrait viewport
`W = 100, H = 200` with radius 2, the click handler's conversion of screen
point `(10, 20)` (it divides by `size.y = 200`, main.cpp:291-292) gives real
offset -4/5, while the frame orchestrator's formula (dividing by
`min(W, H) = 100`, main.cpp:99-102) gives -8/5: the two conversions differ. -/
theorem zoomAt_differs_from_ptOffset :
    (zoomAt 0 0 10 20 100 200 2).1 = -4 / 5 ∧
      (0 : ℚ) + (ptOffset 10 20 100 200 2).1 = -8 / 5 ∧
      ((-4 : ℚ) / 5) ≠ -8 / 5 := by
  refine ⟨by norm_num [zoomAt], by norm_num [ptOffset, Nat.min_def], by norm_num⟩

/-- Claim C6 (amended): whenever the viewport height is the smaller dimension
(`H ≤ W`, so `min(W, H) = H`), the left-click handler's screen-to-complex
conversion coincides with the frame orchestrator's formula: it adds the same
offset `ptOffset` to the center and halves the radius.  The two differ on
portrait viewports (`W < H`), where the handler still divides by `H`. -/
theorem zoomAt_matches_ptOffset (cr ci : ℚ) (mx my : ℤ) (W H : ℕ)
    (radius : ℚ) (_hH : 0 < H) (hHW : H ≤ W) :
    zoomAt cr ci mx my W H radius =
      (cr + (ptOffset mx my W H radius).1,
        ci + (ptOffset mx my W H radius).2, radius / 2) := by
  have hmin : min W H = H := min_eq_right hHW
  simp [zoomAt, ptOffset, hmin]

theorem zoomAt_matches_ptOffset_witness :
    (0 : ℕ) < 100 ∧ (100 : ℕ) ≤ 100 ∧
      zoomAt 0 0 10 20 100 100 2 =
        ((0 : ℚ) + (ptOffset 10 20 100 100 2).1,
          (0 : ℚ) + (ptOffset 10 20 100 100 2).2, (2 : ℚ) / 2) :=
  ⟨by norm_num, by norm_num,
    zoomAt_matches_ptOffset 0 0 10 20 100 100 2 (by norm_num) (by norm_num)⟩

end Antelbrot
